import Mathlib

set_option maxRecDepth 40000

/-!
Verification of the proof-of-work mining kernel of the fractal-triangle
blockchain standalone miner (`src/standalone-miner/src/main.rs`).

The development shallowly embeds the four core functions of the miner:

* `hash_with_fractal_salt` — SHA-256 of `data` then `salt`, fed as two
  streaming updates (the `sha2` crate API used by the source);
* `get_target` — derivation of the 32-byte difficulty threshold, including
  the source's zeroing loop, whose out-of-bounds index panic is modelled by
  `Option`;
* `validate_proof` — the byte-wise lexicographic comparator;
* `Miner.mine` — the nonce search loop, given explicit fuel to model the
  unbounded `loop`.

Bytes are `Nat`s (values < 256 in every reachable state); 32-bit words are
`Nat`s reduced mod 2^32 wherever the Rust `u32` arithmetic wraps.
-/

/-! ## SHA-256 primitive (model of the `sha2` crate dependency, FIPS 180-4) -/

/-- Mask for 32-bit words. -/
def M32 : Nat := 4294967295

/-- Right rotation of a 32-bit word. -/
def rotr (n x : Nat) : Nat := ((x >>> n) ||| (x <<< (32 - n))) &&& M32

/-- The SHA-256 choice function. -/
def ch (x y z : Nat) : Nat := (x &&& y) ^^^ ((x ^^^ M32) &&& z)

/-- The SHA-256 majority function. -/
def maj (x y z : Nat) : Nat := (x &&& y) ^^^ (x &&& z) ^^^ (y &&& z)

/-- Big sigma-0 of SHA-256. -/
def bigSigma0 (x : Nat) : Nat := rotr 2 x ^^^ rotr 13 x ^^^ rotr 22 x

/-- Big sigma-1 of SHA-256. -/
def bigSigma1 (x : Nat) : Nat := rotr 6 x ^^^ rotr 11 x ^^^ rotr 25 x

/-- Small sigma-0 of SHA-256. -/
def smallSigma0 (x : Nat) : Nat := rotr 7 x ^^^ rotr 18 x ^^^ (x >>> 3)

/-- Small sigma-1 of SHA-256. -/
def smallSigma1 (x : Nat) : Nat := rotr 17 x ^^^ rotr 19 x ^^^ (x >>> 10)

/-- The 64 SHA-256 round constants, in decimal. -/
def K64 : List Nat :=
  [1116352408, 1899447441, 3049323471, 3921009573, 961987163, 1508970993,
   2453635748, 2870763221, 3624381080, 310598401, 607225278, 1426881987,
   1925078388, 2162078206, 2614888103, 3248222580, 3835390401, 4022224774,
   264347078, 604807628, 770255983, 1249150122, 1555081692, 1996064986,
   2554220882, 2821834349, 2952996808, 3210313671, 3336571891, 3584528711,
   113926993, 338241895, 666307205, 773529912, 1294757372, 1396182291,
   1695183700, 1986661051, 2177026350, 2456956037, 2730485921, 2820302411,
   3259730800, 3345764771, 3516065817, 3600352804, 4094571909, 275423344,
   430227734, 506948616, 659060556, 883997877, 958139571, 1322822218,
   1537002063, 1747873779, 1955562222, 2024104815, 2227730452, 2361852424,
   2428436474, 2756734187, 3204031479, 3329325298]

/-- The eight 32-bit working/chaining words of a SHA-256 state. -/
structure Words8 where
  w0 : Nat
  w1 : Nat
  w2 : Nat
  w3 : Nat
  w4 : Nat
  w5 : Nat
  w6 : Nat
  w7 : Nat
deriving DecidableEq, Repr

/-- The SHA-256 initial hash value, in decimal. -/
def initHash : Words8 :=
  ⟨1779033703, 3144134277, 1013904242, 2773480762,
   1359893119, 2600822924, 528734635, 1541459225⟩

/-- Group a byte list into big-endian 32-bit words, four bytes per word. -/
def bytesToWords : List Nat → List Nat
  | b0 :: b1 :: b2 :: b3 :: rest =>
      (((b0 * 256 + b1) * 256 + b2) * 256 + b3) :: bytesToWords rest
  | _ => []

/-- Extend the 16 message words to the 64-word schedule; the accumulator is
kept newest-first, so `W[t-2]` is entry 1, `W[t-7]` entry 6, `W[t-15]`
entry 14 and `W[t-16]` entry 15. -/
def scheduleRev : Nat → List Nat → List Nat
  | 0, acc => acc
  | n + 1, acc =>
      let nw := (smallSigma1 (acc.getD 1 0) + acc.getD 6 0 +
                 smallSigma0 (acc.getD 14 0) + acc.getD 15 0) &&& M32
      scheduleRev n (nw :: acc)

/-- The full 64-entry message schedule of a block. -/
def schedule (w16 : List Nat) : List Nat := (scheduleRev 48 w16.reverse).reverse

/-- One SHA-256 round: consume one (schedule word, round constant) pair. -/
def roundStep (s : Words8) (wk : Nat × Nat) : Words8 :=
  let t1 := (s.w7 + bigSigma1 s.w4 + ch s.w4 s.w5 s.w6 + wk.2 + wk.1) &&& M32
  let t2 := (bigSigma0 s.w0 + maj s.w0 s.w1 s.w2) &&& M32
  ⟨(t1 + t2) &&& M32, s.w0, s.w1, s.w2, (s.w3 + t1) &&& M32, s.w4, s.w5, s.w6⟩

/-- The SHA-256 compression function on one 64-byte block. -/
def compress (hv : Words8) (block : List Nat) : Words8 :=
  let w := schedule (bytesToWords block)
  let r := (w.zip K64).foldl roundStep hv
  ⟨(hv.w0 + r.w0) &&& M32, (hv.w1 + r.w1) &&& M32, (hv.w2 + r.w2) &&& M32,
   (hv.w3 + r.w3) &&& M32, (hv.w4 + r.w4) &&& M32, (hv.w5 + r.w5) &&& M32,
   (hv.w6 + r.w6) &&& M32, (hv.w7 + r.w7) &&& M32⟩

/-- Absorb one byte into a (chaining value, pending buffer) pair, compressing
as soon as a full 64-byte block has accumulated. -/
def absorbByte (s : Words8 × List Nat) (b : Nat) : Words8 × List Nat :=
  let buf := s.2 ++ [b]
  if buf.length = 64 then (compress s.1 buf, []) else (s.1, buf)

/-- Absorb a byte sequence into a (chaining value, pending buffer) pair. -/
def absorb (s : Words8 × List Nat) (data : List Nat) : Words8 × List Nat :=
  data.foldl absorbByte s

/-- Big-endian byte serialization of a number into `k` bytes. -/
def beBytes : Nat → Nat → List Nat
  | 0, _ => []
  | k + 1, n => beBytes k (n / 256) ++ [n % 256]

/-- Little-endian byte serialization of a number into `k` bytes. -/
def leBytes : Nat → Nat → List Nat
  | 0, _ => []
  | k + 1, n => n % 256 :: leBytes k (n / 256)

/-- The SHA-256 padding for a message of `len` bytes: the byte 0x80, zeros up
to 8 bytes short of a block boundary, then the 64-bit big-endian bit length. -/
def padBytes (len : Nat) : List Nat :=
  128 :: List.replicate ((119 - len % 64) % 64) 0 ++ beBytes 8 ((8 * len) % 2 ^ 64)

/-- Serialize the eight chaining words into the 32 digest bytes. -/
def outputBytes (hv : Words8) : List Nat :=
  beBytes 4 hv.w0 ++ beBytes 4 hv.w1 ++ beBytes 4 hv.w2 ++ beBytes 4 hv.w3 ++
  beBytes 4 hv.w4 ++ beBytes 4 hv.w5 ++ beBytes 4 hv.w6 ++ beBytes 4 hv.w7

/-- The streaming SHA-256 hasher state of the `sha2` crate: chaining value,
pending partial block, and total message length in bytes. -/
structure Sha256State where
  hv : Words8
  buf : List Nat
  len : Nat

/-- A fresh hasher (`Sha256::new()`). -/
def Sha256State.new : Sha256State := ⟨initHash, [], 0⟩

/-- Feed one chunk of data to the hasher (`hasher.update(data)`). -/
def Sha256State.update (s : Sha256State) (data : List Nat) : Sha256State :=
  ⟨(absorb (s.hv, s.buf) data).1, (absorb (s.hv, s.buf) data).2,
   s.len + data.length⟩

/-- Close the hasher and emit the 32 digest bytes (`hasher.finalize()`). -/
def Sha256State.finalize (s : Sha256State) : List Nat :=
  outputBytes (absorb (s.hv, s.buf) (padBytes s.len)).1

/-- One-shot SHA-256 of a whole message, as the specification describes it:
pad the message and compress block by block from the initial hash value. -/
def sha256 (msg : List Nat) : List Nat :=
  outputBytes (absorb (initHash, []) (msg ++ padBytes msg.length)).1

/-! ## The miner's core functions (`src/standalone-miner/src/main.rs`) -/

/-- SHA-256 of `data` then `salt`, fed as two streaming updates — the body of
`hash_with_fractal_salt` in the source. -/
def hash_with_fractal_salt (data salt : List Nat) : List Nat :=
  Sha256State.finalize (Sha256State.update (Sha256State.update Sha256State.new data) salt)

/-- One indexed store `v[i] = x`; Rust's `Vec` indexing panics when the index
is out of bounds, modelled as `none`. -/
def storeAt (v : List Nat) (i x : Nat) : Option (List Nat) :=
  if i < v.length then some (v.set i x) else none

/-- The zeroing loop `for i in 0..bytes { target[i] = 0; }` of `get_target`,
started at index `i` with `k` iterations left. -/
def zeroFrom (v : List Nat) (i : Nat) : Nat → Option (List Nat)
  | 0 => some v
  | k + 1 =>
      match storeAt v i 0 with
      | some v2 => zeroFrom v2 (i + 1) k
      | none => none

/-- The miner's `get_target`: 32 zero bytes, the (no-op, but possibly
out-of-bounds) zeroing loop, then the single byte `255 >> (difficulty % 8)`
written at index `difficulty / 8` when that index is in range. -/
def get_target (difficulty : Nat) : Option (List Nat) :=
  let bytes := difficulty / 8
  match zeroFrom (List.replicate 32 0) 0 bytes with
  | none => none
  | some target =>
      if bytes < 32 then storeAt target bytes (255 >>> (difficulty % 8))
      else some target

/-- The miner's `validate_proof`: byte-wise short-circuiting comparison over
the zipped pair of sequences, `true` when the zip is exhausted. -/
def validate_proof : List Nat → List Nat → Bool
  | h :: hs, t :: ts =>
      if h < t then true else if h > t then false else validate_proof hs ts
  | _, _ => true

/-- The 8-byte little-endian encoding of a `u64` nonce (`nonce.to_le_bytes()`). -/
def u64_to_le_bytes (n : Nat) : List Nat := leBytes 8 n

/-- The miner record of the source (`address` and `hash_rate` play no role in
the mining algorithm). -/
structure Miner where
  address : String
  hash_rate : Nat

/-- The body of the source's `loop`: hash `data ++ nonce.to_le_bytes()` with
the salt, return on acceptance, else retry with `nonce + 1`; `fuel` bounds the
number of attempts to keep the unbounded loop total. -/
def mineLoop (data salt target : List Nat) : Nat → Nat → Option (Nat × List Nat)
  | 0, _ => none
  | fuel + 1, nonce =>
      let input := data ++ u64_to_le_bytes nonce
      let hash := hash_with_fractal_salt input salt
      if validate_proof hash target then some (nonce, hash)
      else mineLoop data salt target fuel (nonce + 1)

/-- The miner's `mine`: derive the target once, then search nonces from 0. -/
def Miner.mine (self : Miner) (data salt : List Nat) (difficulty : Nat)
    (fuel : Nat) : Option (Nat × List Nat) :=
  match get_target difficulty with
  | none => none
  | some target => mineLoop data salt target fuel 0

/-- The value of a byte sequence read as an unsigned big-endian integer. -/
def beNat : List Nat → Nat
  | [] => 0
  | b :: bs => b * 256 ^ bs.length + beNat bs

/-! ## Helper lemmas -/

theorem absorb_append (s : Words8 × List Nat) (a b : List Nat) :
    absorb s (a ++ b) = absorb (absorb s a) b := by
  simp [absorb, List.foldl_append]

theorem hash_eq_sha256 (a b : List Nat) :
    hash_with_fractal_salt a b = sha256 (a ++ b) := by
  simp [hash_with_fractal_salt, Sha256State.new, Sha256State.update,
        Sha256State.finalize, sha256, absorb_append, List.length_append,
        Nat.zero_add]

theorem beBytes_length (k : Nat) : ∀ n, (beBytes k n).length = k := by
  induction k with
  | zero => intro n; rfl
  | succ k ih => intro n; simp [beBytes, ih]

theorem outputBytes_length (hv : Words8) : (outputBytes hv).length = 32 := by
  simp [outputBytes, beBytes_length]

theorem hash_with_fractal_salt_length (a b : List Nat) :
    (hash_with_fractal_salt a b).length = 32 := by
  simp [hash_with_fractal_salt, Sha256State.finalize, outputBytes_length]

theorem validate_proof_cons (a b : Nat) (as bs : List Nat) :
    validate_proof (a :: as) (b :: bs) =
      if a < b then true else if b < a then false else validate_proof as bs := rfl

theorem mineLoop_spec (data salt target : List Nat) :
    ∀ fuel nonce n dg, mineLoop data salt target fuel nonce = some (n, dg) →
      dg = hash_with_fractal_salt (data ++ u64_to_le_bytes n) salt ∧
      validate_proof dg target = true := by
  intro fuel
  induction fuel with
  | zero => intro nonce n dg h; simp [mineLoop] at h
  | succ fuel ih =>
    intro nonce n dg h
    simp only [mineLoop] at h
    by_cases hv : validate_proof
        (hash_with_fractal_salt (data ++ u64_to_le_bytes nonce) salt) target = true
    · rw [if_pos hv] at h
      simp only [Option.some.injEq, Prod.mk.injEq] at h
      obtain ⟨hn, hd⟩ := h
      subst hn; subst hd
      exact ⟨rfl, hv⟩
    · rw [if_neg hv] at h
      exact ih (nonce + 1) n dg h

theorem mineLoop_least (data salt target : List Nat) :
    ∀ fuel nonce n dg, mineLoop data salt target fuel nonce = some (n, dg) →
      nonce ≤ n ∧ ∀ m, nonce ≤ m → m < n →
        validate_proof (hash_with_fractal_salt (data ++ u64_to_le_bytes m) salt)
          target = false := by
  intro fuel
  induction fuel with
  | zero => intro nonce n dg h; simp [mineLoop] at h
  | succ fuel ih =>
    intro nonce n dg h
    simp only [mineLoop] at h
    by_cases hv : validate_proof
        (hash_with_fractal_salt (data ++ u64_to_le_bytes nonce) salt) target = true
    · rw [if_pos hv] at h
      simp only [Option.some.injEq, Prod.mk.injEq] at h
      obtain ⟨hn, _⟩ := h
      subst hn
      exact ⟨Nat.le_refl _, fun m h1 h2 => absurd (Nat.lt_of_le_of_lt h1 h2)
        (Nat.lt_irrefl _)⟩
    · rw [if_neg hv] at h
      obtain ⟨hle, hall⟩ := ih (nonce + 1) n dg h
      refine ⟨by omega, fun m h1 h2 => ?_⟩
      rcases Nat.eq_or_lt_of_le h1 with h1 | h1
      · subst h1
        exact Bool.not_eq_true _ ▸ hv
      · exact hall m h1 h2

theorem mineLoop_mono (data salt target : List Nat) :
    ∀ fuel fuel2 nonce r, fuel ≤ fuel2 →
      mineLoop data salt target fuel nonce = some r →
      mineLoop data salt target fuel2 nonce = some r := by
  intro fuel
  induction fuel with
  | zero => intro fuel2 nonce r _ h; simp [mineLoop] at h
  | succ fuel ih =>
    intro fuel2 nonce r hle h
    obtain ⟨fuel3, rfl⟩ : ∃ k, fuel2 = k + 1 :=
      ⟨fuel2 - 1, by omega⟩
    simp only [mineLoop] at h ⊢
    by_cases hv : validate_proof
        (hash_with_fractal_salt (data ++ u64_to_le_bytes nonce) salt) target = true
    · rw [if_pos hv] at h ⊢; exact h
    · rw [if_neg hv] at h ⊢
      exact ih fuel3 (nonce + 1) r (by omega) h

theorem storeAt_lt (v : List Nat) (i x : Nat) (h : i < v.length) :
    storeAt v i x = some (v.set i x) := by
  unfold storeAt
  rw [if_pos h]

theorem storeAt_ge (v : List Nat) (i x : Nat) (h : ¬ i < v.length) :
    storeAt v i x = none := by
  unfold storeAt
  rw [if_neg h]

theorem zeroFrom_in_bounds (k : Nat) : ∀ i, i + k ≤ 32 →
    zeroFrom (List.replicate 32 0) i k = some (List.replicate 32 0) := by
  induction k with
  | zero => intro i _; rfl
  | succ k ih =>
    intro i h
    have hi : i < 32 := by omega
    have hs : storeAt (List.replicate 32 0) i 0 = some (List.replicate 32 0) := by
      rw [storeAt_lt _ _ _ (by simpa using hi), List.set_replicate_self]
    simp only [zeroFrom, hs]
    exact ih (i + 1) (by omega)

theorem zeroFrom_out_of_bounds (k : Nat) : ∀ i (v : List Nat), v.length = 32 →
    i ≤ 32 → 32 < i + k → zeroFrom v i k = none := by
  induction k with
  | zero => intro i v _ hi h; omega
  | succ k ih =>
    intro i v hl hi h
    by_cases hlt : i < 32
    · have hs : storeAt v i 0 = some (v.set i 0) := storeAt_lt _ _ _ (by omega)
      simp only [zeroFrom, hs]
      exact ih (i + 1) (v.set i 0) (by simp [hl]) (by omega) (by omega)
    · have hi32 : i = 32 := by omega
      subst hi32
      have hs : storeAt v 32 0 = none := storeAt_ge _ _ _ (by omega)
      simp only [zeroFrom, hs]

theorem get_target_eq (d : Nat) : get_target d =
    match zeroFrom (List.replicate 32 0) 0 (d / 8) with
    | none => none
    | some target =>
        if d / 8 < 32 then storeAt target (d / 8) (255 >>> (d % 8))
        else some target := rfl

theorem get_target_eq_of_lt (d : Nat) (h : d < 264) :
    get_target d = some (if d / 8 < 32
      then (List.replicate 32 0).set (d / 8) (255 >>> (d % 8))
      else List.replicate 32 0) := by
  have hz : zeroFrom (List.replicate 32 0) 0 (d / 8) = some (List.replicate 32 0) :=
    zeroFrom_in_bounds (d / 8) 0 (by omega)
  rw [get_target_eq, hz]
  show (if d / 8 < 32 then storeAt (List.replicate 32 0) (d / 8) (255 >>> (d % 8))
        else some (List.replicate 32 0)) = _
  by_cases h32 : d / 8 < 32
  · rw [if_pos h32, if_pos h32, storeAt_lt _ _ _ (by simpa using h32)]
  · rw [if_neg h32, if_neg h32]

theorem getD_set_self (l : List Nat) : ∀ i x, i < l.length →
    (l.set i x).getD i 0 = x := by
  induction l with
  | nil => intro i x h; simp at h
  | cons a t ih =>
    intro i x h
    cases i with
    | zero => rfl
    | succ i => simpa using ih i x (by simpa using h)

theorem getD_set_ne (l : List Nat) : ∀ i j x, i ≠ j →
    (l.set i x).getD j 0 = l.getD j 0 := by
  induction l with
  | nil => intro i j x _; simp [List.set]
  | cons a t ih =>
    intro i j x h
    cases i with
    | zero =>
      cases j with
      | zero => exact absurd rfl h
      | succ j => simp
    | succ i =>
      cases j with
      | zero => simp
      | succ j => simpa using ih i j x (by omega)

theorem getD_replicate (n : Nat) : ∀ i, (List.replicate n (0 : Nat)).getD i 0 = 0 := by
  induction n with
  | zero => intro i; simp
  | succ n ih =>
    intro i
    cases i with
    | zero => rfl
    | succ i => simpa [List.replicate_succ] using ih i

theorem beNat_lt (l : List Nat) (h : ∀ b ∈ l, b < 256) :
    beNat l < 256 ^ l.length := by
  induction l with
  | nil => simp [beNat]
  | cons b bs ih =>
    have hb : b < 256 := h b (by simp)
    have hbs : beNat bs < 256 ^ bs.length := ih (fun x hx => h x (by simp [hx]))
    calc beNat (b :: bs) = b * 256 ^ bs.length + beNat bs := rfl
      _ < b * 256 ^ bs.length + 256 ^ bs.length := Nat.add_lt_add_left hbs _
      _ = (b + 1) * 256 ^ bs.length := (Nat.succ_mul b _).symm
      _ ≤ 256 * 256 ^ bs.length := Nat.mul_le_mul_right _ (by omega)
      _ = 256 ^ (b :: bs).length := by rw [List.length_cons, Nat.pow_succ]; ring

theorem validate_proof_iff_beNat : ∀ (d t : List Nat), d.length = t.length →
    (∀ b ∈ d, b < 256) → (∀ b ∈ t, b < 256) →
    (validate_proof d t = true ↔ beNat d ≤ beNat t) := by
  intro d
  induction d with
  | nil =>
    intro t hlen _ _
    cases t with
    | nil => simp [validate_proof, beNat]
    | cons x xs => simp at hlen
  | cons a as ih =>
    intro t hlen hd ht
    cases t with
    | nil => simp at hlen
    | cons b bs =>
      have hlen2 : as.length = bs.length := by simpa using hlen
      have hdas : ∀ x ∈ as, x < 256 := fun x hx => hd x (by simp [hx])
      have htbs : ∀ x ∈ bs, x < 256 := fun x hx => ht x (by simp [hx])
      have hbeb : beNat (b :: bs) = b * 256 ^ as.length + beNat bs := by
        simp only [beNat]
        rw [hlen2]
      have hbea : beNat (a :: as) = a * 256 ^ as.length + beNat as := rfl
      rcases Nat.lt_trichotomy a b with hab | hab | hab
      · have h1 : beNat as < 256 ^ as.length := beNat_lt as hdas
        have h3 : beNat (a :: as) ≤ beNat (b :: bs) := by
          rw [hbea, hbeb]
          exact Nat.le_of_lt (calc a * 256 ^ as.length + beNat as
              < a * 256 ^ as.length + 256 ^ as.length := Nat.add_lt_add_left h1 _
            _ = (a + 1) * 256 ^ as.length := (Nat.succ_mul a _).symm
            _ ≤ b * 256 ^ as.length := Nat.mul_le_mul_right _ (by omega)
            _ ≤ b * 256 ^ as.length + beNat bs := Nat.le_add_right _ _)
        rw [validate_proof_cons, if_pos hab]
        simpa using h3
      · subst hab
        have e2 : (beNat (a :: as) ≤ beNat (a :: bs)) ↔ beNat as ≤ beNat bs := by
          rw [hbea, hbeb]
          exact Nat.add_le_add_iff_left
        rw [validate_proof_cons, if_neg (Nat.lt_irrefl a), if_neg (Nat.lt_irrefl a),
            e2]
        exact ih bs hlen2 hdas htbs
      · have h1 : beNat bs < 256 ^ as.length := hlen2 ▸ beNat_lt bs htbs
        have h3 : beNat (b :: bs) < beNat (a :: as) := by
          rw [hbea, hbeb]
          calc b * 256 ^ as.length + beNat bs
              < b * 256 ^ as.length + 256 ^ as.length := Nat.add_lt_add_left h1 _
            _ = (b + 1) * 256 ^ as.length := (Nat.succ_mul b _).symm
            _ ≤ a * 256 ^ as.length := Nat.mul_le_mul_right _ (by omega)
            _ ≤ a * 256 ^ as.length + beNat as := Nat.le_add_right _ _
        rw [validate_proof_cons, if_neg (Nat.lt_asymm hab), if_pos hab]
        exact iff_of_false (by simp) (Nat.not_le.mpr h3)

theorem validate_proof_zeros : ∀ (n : Nat) (d : List Nat), d.length = n →
    (validate_proof d (List.replicate n 0) = true ↔ ∀ b ∈ d, b = 0) := by
  intro n
  induction n with
  | zero =>
    intro d hd
    rw [List.length_eq_zero] at hd
    subst hd
    simp [validate_proof]
  | succ n ih =>
    intro d hd
    cases d with
    | nil => simp at hd
    | cons a as =>
      rw [List.replicate_succ, validate_proof_cons]
      by_cases ha : a = 0
      · subst ha
        rw [if_neg (Nat.lt_irrefl 0), if_neg (Nat.lt_irrefl 0),
            ih as (by simpa using hd)]
        simp
      · have hpos : 0 < a := Nat.pos_of_ne_zero ha
        rw [if_neg (Nat.not_lt_zero a), if_pos hpos]
        simp [ha]

theorem validate_proof_nil_right : ∀ (h : List Nat), validate_proof h [] = true := by
  intro h
  cases h <;> rfl

theorem validate_proof_refl : ∀ (x : List Nat), validate_proof x x = true := by
  intro x
  induction x with
  | nil => rfl
  | cons a as ih =>
    rw [validate_proof_cons, if_neg (Nat.lt_irrefl a), if_neg (Nat.lt_irrefl a)]
    exact ih

theorem validate_proof_take : ∀ (h t : List Nat), validate_proof h t =
    validate_proof (h.take t.length) (t.take h.length) := by
  intro h
  induction h with
  | nil =>
    intro t
    rw [List.take_nil, List.length_nil, List.take_zero]
    cases t <;> rfl
  | cons a as ih =>
    intro t
    cases t with
    | nil => rfl
    | cons b bs =>
      rw [List.length_cons, List.length_cons, List.take_succ_cons,
          List.take_succ_cons, validate_proof_cons, validate_proof_cons, ih bs]

/-! ## Claim theorems -/

/-- C1: whenever `mine` returns a pair `(nonce, digest)`, the digest equals
`hash_with_fractal_salt` of the payload concatenated with the 8-byte
little-endian nonce, under the given salt, and `validate_proof` accepts that
digest against `get_target difficulty`; an independent recomputation from the
inputs and the returned nonce therefore verifies the proof. -/
theorem mine_returns_verifiable_proof (self : Miner) (data salt : List Nat)
    (difficulty fuel n : Nat) (dg target : List Nat)
    (htarget : get_target difficulty = some target)
    (hmine : Miner.mine self data salt difficulty fuel = some (n, dg)) :
    dg = hash_with_fractal_salt (data ++ u64_to_le_bytes n) salt ∧
    validate_proof dg target = true := by
  simp only [Miner.mine, htarget] at hmine
  exact mineLoop_spec data salt target fuel 0 n dg hmine

theorem mine_returns_verifiable_proof_witness :
    ([175, 85, 112, 245, 161, 129, 11, 122, 247, 140, 175, 75, 199, 10, 102, 15,
      13, 245, 30, 66, 186, 249, 29, 77, 229, 178, 50, 141, 224, 232, 61, 252] :
      List Nat) =
      hash_with_fractal_salt ([] ++ u64_to_le_bytes 0) [] ∧
    validate_proof
      [175, 85, 112, 245, 161, 129, 11, 122, 247, 140, 175, 75, 199, 10, 102, 15,
       13, 245, 30, 66, 186, 249, 29, 77, 229, 178, 50, 141, 224, 232, 61, 252]
      (255 :: List.replicate 31 0) = true :=
  mine_returns_verifiable_proof ⟨"m", 0⟩ [] [] 0 1 0
    [175, 85, 112, 245, 161, 129, 11, 122, 247, 140, 175, 75, 199, 10, 102, 15,
     13, 245, 30, 66, 186, 249, 29, 77, 229, 178, 50, 141, 224, 232, 61, 252]
    (255 :: List.replicate 31 0) (by decide) (by decide)

/-- C2 (amended): for every difficulty below 264 — where the zeroing loop of
`get_target` stays in bounds — `get_target` returns a 32-byte sequence that is
zero everywhere except possibly index `difficulty / 8`, which, when below 32,
holds `255 >>> (difficulty % 8)`; in particular `get_target 0`, `get_target 8`
and `get_target 255` have the shapes the specification lists. For difficulty
264 and above, the loop writes out of bounds and the call panics instead of
returning (see the counterexample). -/
theorem get_target_shape :
    (∀ d, d < 264 → ∃ t, get_target d = some t ∧ t.length = 32 ∧
      (∀ i, i < 32 → i ≠ d / 8 → t.getD i 0 = 0) ∧
      (d / 8 < 32 → t.getD (d / 8) 0 = 255 >>> (d % 8))) ∧
    get_target 0 = some (255 :: List.replicate 31 0) ∧
    get_target 8 = some (0 :: 255 :: List.replicate 30 0) ∧
    get_target 255 = some (List.replicate 31 0 ++ [1]) := by
  refine ⟨fun d hd => ?_, by decide, by decide, by decide⟩
  rw [get_target_eq_of_lt d hd]
  by_cases h32 : d / 8 < 32
  · refine ⟨(List.replicate 32 0).set (d / 8) (255 >>> (d % 8)),
      by rw [if_pos h32], by simp, ?_, fun _ => getD_set_self _ _ _ (by simpa using h32)⟩
    intro i hi hne
    rw [getD_set_ne _ _ _ _ (fun he => hne he.symm)]
    exact getD_replicate 32 i
  · refine ⟨List.replicate 32 0, by rw [if_neg h32], by simp,
      fun i hi hne => getD_replicate 32 i, fun hcon => absurd hcon h32⟩

theorem get_target_shape_witness : get_target 13 ≠ none := by
  obtain ⟨t, ht, _⟩ := get_target_shape.1 13 (by decide)
  simp [ht]

/-- C2 counterexample: at difficulty 512 the zeroing loop
`for i in 0..64 { target[i] = 0 }` indexes past the 32-byte vector, so
`get_target 512` panics instead of returning a 32-byte sequence — refuting the
claim as stated for every difficulty. -/
theorem get_target_panics_at_512 : get_target 512 = none := by decide

/-- C3: for 32-byte sequences whose entries are bytes, `validate_proof` accepts
exactly when the digest, read as an unsigned big-endian 256-bit integer, is at
most the target read the same way. -/
theorem validate_proof_iff_be_le (d t : List Nat) (hd32 : d.length = 32)
    (ht32 : t.length = 32) (hd : ∀ b ∈ d, b < 256) (ht : ∀ b ∈ t, b < 256) :
    validate_proof d t = true ↔ beNat d ≤ beNat t :=
  validate_proof_iff_beNat d t (by rw [hd32, ht32]) hd ht

theorem validate_proof_iff_be_le_witness :
    beNat (List.replicate 32 0) ≤ beNat (List.replicate 31 0 ++ [7]) :=
  (validate_proof_iff_be_le (List.replicate 32 0) (List.replicate 31 0 ++ [7])
    (by decide) (by decide) (by decide) (by decide)).mp (by decide)

/-- C4 (amended): for difficulties 256 through 263 the byte write of
`get_target` is skipped and the all-zero target is returned without error, but
from difficulty 264 on the zeroing loop itself accesses index 32 of the
32-byte vector and the function panics instead of returning — the claim's
"no out-of-bounds access for every difficulty ≥ 256" fails (see the
counterexample). -/
theorem get_target_high_difficulty :
    (∀ d, 256 ≤ d → d < 264 → get_target d = some (List.replicate 32 0)) ∧
    (∀ d, 264 ≤ d → get_target d = none) := by
  constructor
  · intro d h1 h2
    have h32 : ¬ d / 8 < 32 := by omega
    rw [get_target_eq_of_lt d h2, if_neg h32]
  · intro d h1
    have hz : zeroFrom (List.replicate 32 0) 0 (d / 8) = none :=
      zeroFrom_out_of_bounds (d / 8) 0 (List.replicate 32 0) (by simp)
        (by omega) (by omega)
    rw [get_target_eq, hz]

theorem get_target_high_difficulty_witness :
    get_target 256 = some (List.replicate 32 0) :=
  get_target_high_difficulty.1 256 (by decide) (by decide)

/-- C4 counterexample: at difficulty 264 the zeroing loop runs
`for i in 0..33 { target[i] = 0 }` and the store at index 32 is out of bounds,
so `get_target 264` panics rather than returning the all-zero target. -/
theorem get_target_panics_at_264 : get_target 264 = none := by decide

/-- C5: feeding `payload ++ nonce_le_bytes` as one streaming update and the
salt as a second update — exactly what `hash_with_fractal_salt` does inside
`mine` — produces the same 32-byte digest as one-shot SHA-256 of the single
concatenation `payload ++ nonce_le_bytes ++ salt`. -/
theorem streaming_two_update_eq_oneshot (payload salt : List Nat) (nonce : Nat) :
    hash_with_fractal_salt (payload ++ u64_to_le_bytes nonce) salt =
    sha256 (payload ++ u64_to_le_bytes nonce ++ salt) := by
  rw [hash_eq_sha256, List.append_assoc]

/-- C6: whenever `mine` returns `(nonce, digest)`, every nonce below the
returned one was rejected: the search starts at 0 and increments by exactly 1
after each rejection, so the returned nonce is the least satisfying one. -/
theorem mine_returns_least_nonce (self : Miner) (data salt : List Nat)
    (difficulty fuel n : Nat) (dg target : List Nat)
    (htarget : get_target difficulty = some target)
    (hmine : Miner.mine self data salt difficulty fuel = some (n, dg)) :
    ∀ m, m < n →
      validate_proof (hash_with_fractal_salt (data ++ u64_to_le_bytes m) salt)
        target = false := by
  simp only [Miner.mine, htarget] at hmine
  intro m hm
  exact (mineLoop_least data salt target fuel 0 n dg hmine).2 m (Nat.zero_le m) hm

theorem mine_returns_least_nonce_witness :
    validate_proof (hash_with_fractal_salt ([] ++ u64_to_le_bytes 0) [4])
      (127 :: List.replicate 31 0) = false :=
  mine_returns_least_nonce ⟨"m", 0⟩ [] [4] 1 2 1
    [111, 232, 200, 13, 44, 90, 223, 198, 243, 239, 3, 61, 117, 249, 3, 94, 17,
     204, 209, 113, 33, 64, 42, 94, 230, 129, 188, 14, 62, 252, 26, 38]
    (127 :: List.replicate 31 0) (by decide) (by decide) 0 (by decide)

/-- C7: against the all-zero 32-byte target, `validate_proof` accepts a
32-byte digest exactly when every byte of the digest is zero. -/
theorem validate_proof_allzero_target (d : List Nat) (hd : d.length = 32) :
    (validate_proof d (List.replicate 32 0) = true ↔ ∀ b ∈ d, b = 0) :=
  validate_proof_zeros 32 d hd

theorem validate_proof_allzero_target_witness :
    validate_proof (List.replicate 32 0) (List.replicate 32 0) = true :=
  (validate_proof_allzero_target (List.replicate 32 0) (by decide)).mpr
    (by decide)

/-- C8: the pipeline is deterministic — `hash_with_fractal_salt` is a pure
function of its two inputs, and any two invocations of `mine` on identical
payload, salt and difficulty that both return (with any fuel bounds and any
miner records) return the identical (nonce, digest) pair. -/
theorem mine_deterministic :
    (∀ (data1 data2 salt1 salt2 : List Nat), data1 = data2 → salt1 = salt2 →
      hash_with_fractal_salt data1 salt1 = hash_with_fractal_salt data2 salt2) ∧
    (∀ (self1 self2 : Miner) (data salt : List Nat)
      (difficulty fuel1 fuel2 : Nat) (r1 r2 : Nat × List Nat),
      Miner.mine self1 data salt difficulty fuel1 = some r1 →
      Miner.mine self2 data salt difficulty fuel2 = some r2 → r1 = r2) := by
  constructor
  · intro data1 data2 salt1 salt2 h1 h2
    rw [h1, h2]
  · intro self1 self2 data salt difficulty fuel1 fuel2 r1 r2 h1 h2
    cases hg : get_target difficulty with
    | none => simp [Miner.mine, hg] at h1
    | some target =>
      simp only [Miner.mine, hg] at h1 h2
      have e1 := mineLoop_mono data salt target fuel1 (fuel1 + fuel2) 0 r1
        (by omega) h1
      have e2 := mineLoop_mono data salt target fuel2 (fuel1 + fuel2) 0 r2
        (by omega) h2
      rw [e1] at e2
      injection e2

theorem mine_deterministic_witness :
    ((0 : Nat),
     ([175, 85, 112, 245, 161, 129, 11, 122, 247, 140, 175, 75, 199, 10, 102, 15,
       13, 245, 30, 66, 186, 249, 29, 77, 229, 178, 50, 141, 224, 232, 61, 252] :
       List Nat)) =
    ((0 : Nat),
     ([175, 85, 112, 245, 161, 129, 11, 122, 247, 140, 175, 75, 199, 10, 102, 15,
       13, 245, 30, 66, 186, 249, 29, 77, 229, 178, 50, 141, 224, 232, 61, 252] :
       List Nat)) :=
  mine_deterministic.2 ⟨"a", 1⟩ ⟨"b", 2⟩ [] [] 0 1 2 _ _ (by decide) (by decide)

/-- C9: on sequences of unequal length `validate_proof` inspects only the
first `min` length byte pairs: it accepts against an empty target, an empty
digest is accepted against any target, the comparison equals the comparison of
the truncations to the common length, and it accepts whenever that common
prefix has no differing byte. -/
theorem validate_proof_length_mismatch :
    (∀ h, validate_proof h [] = true) ∧
    (∀ t, validate_proof [] t = true) ∧
    (∀ h t, validate_proof h t =
      validate_proof (h.take t.length) (t.take h.length)) ∧
    (∀ h t, h.take t.length = t.take h.length → validate_proof h t = true) := by
  refine ⟨validate_proof_nil_right, fun t => rfl, validate_proof_take,
    fun h t hpre => ?_⟩
  rw [validate_proof_take h t, hpre]
  exact validate_proof_refl _

theorem validate_proof_length_mismatch_witness :
    validate_proof [5, 7] [5] = true :=
  validate_proof_length_mismatch.2.2.2 [5, 7] [5] (by decide)

/-- C10: `hash_with_fractal_salt` always returns exactly 32 bytes, and hence
the digest component of every pair returned by `mine` has length exactly 32,
whatever the payload and salt lengths. -/
theorem mine_digest_length (self : Miner) (data salt : List Nat)
    (difficulty fuel n : Nat) (dg : List Nat)
    (hmine : Miner.mine self data salt difficulty fuel = some (n, dg)) :
    (∀ a b : List Nat, (hash_with_fractal_salt a b).length = 32) ∧
    dg.length = 32 := by
  refine ⟨hash_with_fractal_salt_length, ?_⟩
  cases hg : get_target difficulty with
  | none => simp [Miner.mine, hg] at hmine
  | some target =>
    simp only [Miner.mine, hg] at hmine
    obtain ⟨hdg, _⟩ := mineLoop_spec data salt target fuel 0 n dg hmine
    rw [hdg]
    exact hash_with_fractal_salt_length _ _

theorem mine_digest_length_witness :
    ([175, 85, 112, 245, 161, 129, 11, 122, 247, 140, 175, 75, 199, 10, 102, 15,
      13, 245, 30, 66, 186, 249, 29, 77, 229, 178, 50, 141, 224, 232, 61, 252] :
      List Nat).length = 32 :=
  (mine_digest_length ⟨"m", 0⟩ [] [] 0 1 0
    [175, 85, 112, 245, 161, 129, 11, 122, 247, 140, 175, 75, 199, 10, 102, 15,
     13, 245, 30, 66, 186, 249, 29, 77, 229, 178, 50, 141, 224, 232, 61, 252]
    (by decide)).2
